import Mathlib

/-!
Verification of the propositional-logic expression evaluator of the
`algebra-logica` repository (src/utils/expressionEvaluator.js and
src/utils/logicOperations.js).

Expressions are modelled as `List Char` (the JS working string), assignments
as association lists `List (Char × Bool)` in JS object insertion order, and
the iterative regex-rewriting passes as structurally recursive scans.  The
`while` loops of the source, each of which either strictly shortens the
working string or breaks when a pass makes no replacement, are modelled with
a fuel of `length + 1`, which the strict-decrease lemmas below show is
sufficient (each productive pass shortens the string by at least one
character, so the break is reached within `length` iterations).
-/

namespace AlgebraLogica

/-- A trace step as pushed by the evaluator: `{operation, description, result}`
plus the optional `subSteps` array attached to parenthesis-evaluation steps. -/
inductive Step : Type
  | mk (operation : String) (description : String) (res : String)
      (subSteps : Option (List Step)) : Step

def Step.operation : Step → String
  | ⟨o, _, _, _⟩ => o

def Step.description : Step → String
  | ⟨_, d, _, _⟩ => d

def Step.res : Step → String
  | ⟨_, _, r, _⟩ => r

/-- The object returned by `evaluateExpression` when tracing: the
`substitutionSteps` and `expression` fields are absent (`none`) on the
untraced and empty-expression paths. -/
structure EvalResult where
  result : Bool
  steps : List Step
  substitutionSteps : Option (List Step)
  expression : Option String

def boolChar (b : Bool) : Char :=
  if b then '1' else '0'

/-- `V`/`F` as printed in the Spanish step descriptions. -/
def vf (b : Bool) : String :=
  if b then "V" else "F"

/-- The step pushed by the `¬([01])` replacement callback. -/
def notStep (d : Char) : Step :=
  ⟨"¬" ++ d.toString,
   "¬" ++ vf (d == '1') ++ " = " ++ vf (!(d == '1')),
   (boolChar (!(d == '1'))).toString, none⟩

/-- One global pass of `result.replace(/¬([01])/g, ...)`: a left-to-right,
non-overlapping scan of the original string; every `¬` followed by a digit is
replaced by the negation's one-character result and a step is recorded. -/
def replaceNotPassT : List Char → List Char × List Step
  | [] => ([], [])
  | [c] => ([c], [])
  | c :: d :: rest2 =>
    if c = '¬' ∧ (d = '0' ∨ d = '1') then
      (boolChar (!(d == '1')) :: (replaceNotPassT rest2).1,
       notStep d :: (replaceNotPassT rest2).2)
    else
      (c :: (replaceNotPassT (d :: rest2)).1, (replaceNotPassT (d :: rest2)).2)

/-- Whether the string contains an occurrence of the pattern `¬[01]`
(mirrors the scan structure of `replaceNotPassT`). -/
def hasNotMatch : List Char → Bool
  | [] => false
  | [_] => false
  | c :: d :: rest2 =>
    if c = '¬' ∧ (d = '0' ∨ d = '1') then true
    else hasNotMatch (d :: rest2)

/-- The `while (result.includes('¬'))` loop: repeat the NOT pass, breaking as
soon as a pass makes no replacement.  Fuel `length + 1` is sufficient because
each productive pass strictly shortens the string. -/
def notLoopTF : Nat → List Char → List Char × List Step
  | 0, s => (s, [])
  | fuel + 1, s =>
    if (replaceNotPassT s).1 = s then (s, (replaceNotPassT s).2)
    else
      ((notLoopTF fuel (replaceNotPassT s).1).1,
       (replaceNotPassT s).2 ++ (notLoopTF fuel (replaceNotPassT s).1).2)

def notLoopT (s : List Char) : List Char × List Step :=
  notLoopTF (s.length + 1) s

/-- The seven binary operators in the source's precedence order
`['∧','∨','⊼','⊽','⊕','↔','→']`, each paired with its boolean function from
the `operators` map and its display name from `operatorNames`. -/
def operatorList : List (Char × ((Bool → Bool → Bool) × String)) :=
  [('∧', (fun a b => a && b, "AND")),
   ('∨', (fun a b => a || b, "OR")),
   ('⊼', (fun a b => !(a && b), "NAND")),
   ('⊽', (fun a b => !(a || b), "NOR")),
   ('⊕', (fun a b => a != b, "XOR")),
   ('↔', (fun a b => a == b, "BICONDICIONAL")),
   ('→', (fun a b => !a || b, "IMPLICACIÓN"))]

/-- The step pushed by the `([01])op([01])` replacement callback. -/
def binStep (op : Char) (name : String) (a c : Char) (res : Bool) : Step :=
  ⟨String.mk [a, op, c],
   vf (a == '1') ++ " " ++ op.toString ++ " " ++ vf (c == '1') ++ " = " ++
     vf res ++ " (" ++ name ++ ")",
   (boolChar res).toString, none⟩

/-- One global pass of `result.replace(regex, ...)` for the regex
`([01])op([01])`: a left-to-right, non-overlapping scan of the original
string; every digit-operator-digit triple is replaced by the operator's
one-character result and a step is recorded. -/
def replaceBinPassT (op : Char) (f : Bool → Bool → Bool) (name : String) :
    List Char → List Char × List Step
  | [] => ([], [])
  | [a] => ([a], [])
  | [a, b] => ([a, b], [])
  | a :: b :: c :: rest3 =>
    if (a = '0' ∨ a = '1') ∧ b = op ∧ (c = '0' ∨ c = '1') then
      (boolChar (f (a == '1') (c == '1')) :: (replaceBinPassT op f name rest3).1,
       binStep op name a c (f (a == '1') (c == '1')) ::
         (replaceBinPassT op f name rest3).2)
    else
      (a :: (replaceBinPassT op f name (b :: c :: rest3)).1,
       (replaceBinPassT op f name (b :: c :: rest3)).2)

/-- Whether the string contains a digit-`op`-digit triple (mirrors the scan
structure of `replaceBinPassT`). -/
def hasTriple (op : Char) : List Char → Bool
  | [] => false
  | [_] => false
  | [_, _] => false
  | a :: b :: c :: rest3 =>
    if (a = '0' ∨ a = '1') ∧ b = op ∧ (c = '0' ∨ c = '1') then true
    else hasTriple op (b :: c :: rest3)

/-- The `while (result.match(regex))` loop for one binary operator: repeat
the pass, breaking as soon as a pass makes no replacement.  Fuel
`length + 1` is sufficient because each productive pass strictly shortens
the string. -/
def binLoopTF (op : Char) (f : Bool → Bool → Bool) (name : String) :
    Nat → List Char → List Char × List Step
  | 0, s => (s, [])
  | fuel + 1, s =>
    if (replaceBinPassT op f name s).1 = s then (s, (replaceBinPassT op f name s).2)
    else
      ((binLoopTF op f name fuel (replaceBinPassT op f name s).1).1,
       (replaceBinPassT op f name s).2 ++
         (binLoopTF op f name fuel (replaceBinPassT op f name s).1).2)

def binLoopT (op : Char) (f : Bool → Bool → Bool) (name : String)
    (s : List Char) : List Char × List Step :=
  binLoopTF op f name (s.length + 1) s

/-- The `for (const operator of operatorOrder)` loop: run the rewrite loop of
each binary operator in the fixed precedence order, accumulating steps. -/
def binFold (s : List Char) (acc : List Step) : List Char × List Step :=
  operatorList.foldl
    (fun st p => ((binLoopT p.1 p.2.1 p.2.2 st.1).1,
                  st.2 ++ (binLoopT p.1 p.2.1 p.2.2 st.1).2))
    (s, acc)

/-- The flat string left after the NOT loop and all seven binary-operator
loops of `evaluateSubExpression` have run. -/
def flatResult (s : List Char) : List Char :=
  (binFold (notLoopT s).1 (notLoopT s).2).1

/-- `evaluateSubExpression`: run the NOT loop, then the binary-operator loops
in precedence order, and compare the final string with `"1"` (`result === '1'`). -/
def evaluateSubExpressionT (s : List Char) : Bool × List Step :=
  (decide (flatResult s = ['1']), (binFold (notLoopT s).1 (notLoopT s).2).2)

/-- Split off the longest prefix of characters that are not parentheses
(the `[^()]+` part of the innermost-group regex). -/
def spanNonParen : List Char → List Char × List Char
  | [] => ([], [])
  | c :: rest =>
    if c = '(' ∨ c = ')' then ([], c :: rest)
    else (c :: (spanNonParen rest).1, (spanNonParen rest).2)

/-- The step pushed when an innermost parenthesized group is evaluated. -/
def parenStep (inner : List Char) (b : Bool) (subSteps : List Step) : Step :=
  ⟨"Evaluación: (" ++ inner.asString ++ ")",
   "Paréntesis: " ++ vf b,
   (boolChar b).toString, some subSteps⟩

/-- One global pass of `result.replace(/\(([^()]+)\)/g, ...)`: a
left-to-right, non-overlapping scan of the original string; every innermost
group `(` + one-or-more non-parenthesis characters + `)` is replaced by the
one-character result of `evaluateSubExpression` on its interior, recording a
step that nests the interior's sub-steps.  Fuel `length + 1` is sufficient
because every recursive call drops at least one character. -/
def parenPassTF : Nat → List Char → List Char × List Step
  | 0, s => (s, [])
  | _, [] => ([], [])
  | fuel + 1, c :: rest =>
    if c = '(' ∧ (spanNonParen rest).2.head? = some ')' ∧ (spanNonParen rest).1 ≠ [] then
      (boolChar (evaluateSubExpressionT (spanNonParen rest).1).1 ::
         (parenPassTF fuel (spanNonParen rest).2.tail).1,
       parenStep (spanNonParen rest).1
           (evaluateSubExpressionT (spanNonParen rest).1).1
           (evaluateSubExpressionT (spanNonParen rest).1).2 ::
         (parenPassTF fuel (spanNonParen rest).2.tail).2)
    else
      (c :: (parenPassTF fuel rest).1, (parenPassTF fuel rest).2)

def parenPassT (s : List Char) : List Char × List Step :=
  parenPassTF (s.length + 1) s

/-- The number of `'('` characters in the working string. -/
def parenCount : List Char → Nat
  | [] => 0
  | c :: rest => (if c = '(' then 1 else 0) + parenCount rest

/-- The `while (result.includes('('))` loop: repeat the innermost-group pass,
breaking as soon as a pass makes no replacement.  Fuel `length + 1` is
sufficient because each productive pass strictly shortens the string. -/
def parenLoopTF : Nat → List Char → List Char × List Step
  | 0, s => (s, [])
  | fuel + 1, s =>
    if '(' ∈ s then
      if (parenPassT s).1 = s then (s, (parenPassT s).2)
      else
        ((parenLoopTF fuel (parenPassT s).1).1,
         (parenPassT s).2 ++ (parenLoopTF fuel (parenPassT s).1).2)
    else (s, [])

def parenLoopT (s : List Char) : List Char × List Step :=
  parenLoopTF (s.length + 1) s

/-- JavaScript word characters `[A-Za-z0-9_]`, as used by the `\b`
boundaries of the substitution regex `\bvariable\b`. -/
def wordChar (c : Char) : Bool :=
  c.isAlphanum || c == '_'

/-- Whether the character before the current position (none at the start of
the string) allows a `\b` boundary in front of a (word) variable character. -/
def prevOk : Option Char → Bool
  | none => true
  | some p => !(wordChar p)

/-- Whether the character after the current position (none at the end of the
string) allows a `\b` boundary behind a (word) variable character. -/
def nextOk : List Char → Bool
  | [] => true
  | d :: _ => !(wordChar d)

/-- The scan of `result.replace(/\bv\b/g, rep)` for a single-character
variable `v`: `prev` is the character of the original string preceding the
current position, against which the zero-width `\b` assertions are checked. -/
def substAux (v : Char) (rep : Char) : Option Char → List Char → List Char
  | _, [] => []
  | prev, c :: rest =>
    if c == v && prevOk prev && nextOk rest then
      rep :: substAux v rep (some c) rest
    else
      c :: substAux v rep (some c) rest

/-- Replace every whole-token occurrence of variable `v` by `'1'` or `'0'`
according to `val` (one iteration of the `Object.entries(values).forEach`). -/
def substPass (v : Char) (val : Bool) (s : List Char) : List Char :=
  substAux v (boolChar val) none s

/-- The substitution phase without tracing: fold the assignment's entries, in
object insertion order, over the working string. -/
def substitute (values : List (Char × Bool)) (e : List Char) : List Char :=
  values.foldl (fun s vb => substPass vb.1 vb.2 s) e

/-- The step pushed when a variable's substitution changed the working string. -/
def substRecStep (vb : Char × Bool) (after : List Char) : Step :=
  ⟨"Sustitución: " ++ vb.1.toString,
   vb.1.toString ++ " = " ++ vf vb.2,
   after.asString, none⟩

/-- One iteration of the traced substitution loop: always replace, and push a
step only when the replacement actually changed the working string. -/
def substStep (st : List Char × List Step) (vb : Char × Bool) :
    List Char × List Step :=
  if substPass vb.1 vb.2 st.1 = st.1 then (st.1, st.2)
  else (substPass vb.1 vb.2 st.1, st.2 ++ [substRecStep vb (substPass vb.1 vb.2 st.1)])

/-- The step recording the original expression, pushed onto
`substitutionSteps` before the substitution loop runs. -/
def origStep (e : List Char) : Step :=
  ⟨"Expresión original", e.asString, e.asString, none⟩

/-- The traced substitution phase: starts from the original-expression step
and folds the assignment's entries over the working string. -/
def substituteAll (values : List (Char × Bool)) (e : List Char) :
    List Char × List Step :=
  values.foldl substStep (e, [origStep e])

/-- The step pushed onto `steps` right after substitution, showing the string
with all variables replaced. -/
def snapStep (s : List Char) : Step :=
  ⟨"Sustitución de variables",
   "Expresión con valores: " ++ s.asString,
   s.asString, none⟩

/-- `evaluateExpression(expression, values)` without tracing: the empty
expression short-circuits to `{result: false, steps: []}`; otherwise
substitute, resolve parentheses innermost-first, and evaluate the flat
remainder.  The returned `steps` array is always empty on this path. -/
def evaluateExpression (e : List Char) (values : List (Char × Bool)) :
    Bool × List Step :=
  if e = [] then (false, [])
  else ((evaluateSubExpressionT (parenLoopT (substitute values e)).1).1, [])

/-- `evaluateExpression(expression, values, true)`: the traced variant.  The
empty expression short-circuits before any step bookkeeping, so its result
carries no `substitutionSteps`/`expression` fields. -/
def evaluateExpressionT (e : List Char) (values : List (Char × Bool)) :
    EvalResult :=
  if e = [] then ⟨false, [], none, none⟩
  else
    ⟨(evaluateSubExpressionT (parenLoopT (substituteAll values e).1).1).1,
     snapStep (substituteAll values e).1 ::
       ((parenLoopT (substituteAll values e).1).2 ++
        (evaluateSubExpressionT (parenLoopT (substituteAll values e).1).1).2),
     some (substituteAll values e).2,
     some e.asString⟩

/-- The fixed variable alphabet of `logicOperations.js`. -/
def variablesList : List Char :=
  ['p', 'q', 'r', 'x', 'y', 'z']

/-- `extractVariables(expression)`: filter the fixed alphabet by substring
containment (for one-character symbols, character membership), then
deduplicate and sort, exactly as `[...new Set(...)].sort()` does.  The filter
of the (already duplicate-free, already sorted) alphabet makes both
post-processing stages identity maps, which is proved below. -/
def extractVariables (expression : List Char) : List Char :=
  List.insertionSort (fun a b => a ≤ b)
    ((variablesList.filter (fun v => decide (v ∈ expression))).dedup)

/-- `generateCombinations(variables)`: for each row index `i` from `0` to
`2^n - 1`, the inner loop walks the bit positions `j = n-1, ..., 0` and
`unshift`s `!!(i & (1 << j))` onto the row, so the row ends up holding bit 0
first.  (The JS `1 << j` is a 32-bit shift; the app's alphabet has at most 6
variables, so `Nat.testBit` is a faithful model.) -/
def generateCombinations (vars : List String) : List (List Bool) :=
  (List.range (2 ^ vars.length)).map
    (fun i => (List.range vars.length).reverse.foldl
      (fun combo j => Nat.testBit i j :: combo) [])

/-- The list described by the spec sentence behind C6: one step per variable
of the assignment whose replacement actually changed the working string, in
assignment order, each capturing the variable name, its truth value, and the
string state after that substitution. -/
def perVarSteps : List (Char × Bool) → List Char → List Step
  | [], _ => []
  | vb :: rest, s =>
    (if substPass vb.1 vb.2 s = s then []
     else [substRecStep vb (substPass vb.1 vb.2 s)]) ++
    perVarSteps rest (substPass vb.1 vb.2 s)

/-- The substitution-phase step list exactly as claim C6 words it: the
per-variable steps, followed by one step showing the string with all
variables replaced, and nothing else. -/
def claimSubstitutionSteps (values : List (Char × Bool)) (e : List Char) :
    List Step :=
  perVarSteps values e ++ [snapStep (substitute values e)]

theorem replaceNotPassT_length_le :
    ∀ s : List Char, (replaceNotPassT s).1.length ≤ s.length
  | [] => by simp [replaceNotPassT]
  | [c] => by simp [replaceNotPassT]
  | c :: d :: rest2 => by
    by_cases h : c = '¬' ∧ (d = '0' ∨ d = '1')
    · have ih := replaceNotPassT_length_le rest2
      simp [replaceNotPassT, h]
      omega
    · have ih := replaceNotPassT_length_le (d :: rest2)
      simp [replaceNotPassT, h]
      simpa using ih

theorem replaceNotPassT_length_lt :
    ∀ s : List Char, hasNotMatch s = true →
      (replaceNotPassT s).1.length < s.length
  | [] => by intro hm; simp [hasNotMatch] at hm
  | [c] => by intro hm; simp [hasNotMatch] at hm
  | c :: d :: rest2 => by
    intro hm
    by_cases h : c = '¬' ∧ (d = '0' ∨ d = '1')
    · have hle := replaceNotPassT_length_le rest2
      simp [replaceNotPassT, h]
      omega
    · have ih := replaceNotPassT_length_lt (d :: rest2)
        (by simpa [hasNotMatch, h] using hm)
      simp [replaceNotPassT, h]
      simpa using ih

theorem replaceNotPassT_of_no_match :
    ∀ s : List Char, hasNotMatch s = false → replaceNotPassT s = (s, [])
  | [] => fun _ => rfl
  | [c] => fun _ => rfl
  | c :: d :: rest2 => by
    intro hm
    by_cases h : c = '¬' ∧ (d = '0' ∨ d = '1')
    · simp [hasNotMatch, h] at hm
    · have ih := replaceNotPassT_of_no_match (d :: rest2)
        (by simpa [hasNotMatch, h] using hm)
      simp [replaceNotPassT, h, ih]

theorem hasNotMatch_of_fst_ne (s : List Char)
    (h : (replaceNotPassT s).1 ≠ s) : hasNotMatch s = true := by
  by_contra hm
  exact h (by rw [replaceNotPassT_of_no_match s (by simpa using hm)])

theorem notLoopTF_no_match :
    ∀ (fuel : Nat) (s : List Char), s.length < fuel →
      hasNotMatch (notLoopTF fuel s).1 = false
  | 0, s => by omega
  | fuel + 1, s => by
    intro hlt
    by_cases hfix : (replaceNotPassT s).1 = s
    · simp only [notLoopTF, if_pos hfix]
      by_contra hm
      have := replaceNotPassT_length_lt s (by simpa using hm)
      rw [hfix] at this
      omega
    · have hm := hasNotMatch_of_fst_ne s hfix
      have hlen := replaceNotPassT_length_lt s hm
      have ih := notLoopTF_no_match fuel (replaceNotPassT s).1 (by omega)
      simpa only [notLoopTF, if_neg hfix] using ih

theorem notLoopT_no_match (s : List Char) :
    hasNotMatch (notLoopT s).1 = false :=
  notLoopTF_no_match (s.length + 1) s (Nat.lt_succ_self s.length)

theorem replaceBinPassT_length_le (op : Char) (f : Bool → Bool → Bool)
    (name : String) :
    ∀ s : List Char, (replaceBinPassT op f name s).1.length ≤ s.length
  | [] => by simp [replaceBinPassT]
  | [a] => by simp [replaceBinPassT]
  | [a, b] => by simp [replaceBinPassT]
  | a :: b :: c :: rest3 => by
    by_cases h : (a = '0' ∨ a = '1') ∧ b = op ∧ (c = '0' ∨ c = '1')
    · have ih := replaceBinPassT_length_le op f name rest3
      simp [replaceBinPassT, h]
      omega
    · have ih := replaceBinPassT_length_le op f name (b :: c :: rest3)
      simp [replaceBinPassT, h]
      simpa using ih

theorem replaceBinPassT_length_lt (op : Char) (f : Bool → Bool → Bool)
    (name : String) :
    ∀ s : List Char, hasTriple op s = true →
      (replaceBinPassT op f name s).1.length < s.length
  | [] => by intro hm; simp [hasTriple] at hm
  | [a] => by intro hm; simp [hasTriple] at hm
  | [a, b] => by intro hm; simp [hasTriple] at hm
  | a :: b :: c :: rest3 => by
    intro hm
    by_cases h : (a = '0' ∨ a = '1') ∧ b = op ∧ (c = '0' ∨ c = '1')
    · have hle := replaceBinPassT_length_le op f name rest3
      simp [replaceBinPassT, h]
      omega
    · have ih := replaceBinPassT_length_lt op f name (b :: c :: rest3)
        (by simpa [hasTriple, h] using hm)
      simp [replaceBinPassT, h]
      simpa using ih

theorem replaceBinPassT_of_no_triple (op : Char) (f : Bool → Bool → Bool)
    (name : String) :
    ∀ s : List Char, hasTriple op s = false →
      replaceBinPassT op f name s = (s, [])
  | [] => fun _ => rfl
  | [a] => fun _ => rfl
  | [a, b] => fun _ => rfl
  | a :: b :: c :: rest3 => by
    intro hm
    by_cases h : (a = '0' ∨ a = '1') ∧ b = op ∧ (c = '0' ∨ c = '1')
    · simp [hasTriple, h] at hm
    · have ih := replaceBinPassT_of_no_triple op f name (b :: c :: rest3)
        (by simpa [hasTriple, h] using hm)
      simp [replaceBinPassT, h, ih]

theorem hasTriple_of_fst_ne (op : Char) (f : Bool → Bool → Bool)
    (name : String) (s : List Char)
    (h : (replaceBinPassT op f name s).1 ≠ s) : hasTriple op s = true := by
  by_contra hm
  exact h (by rw [replaceBinPassT_of_no_triple op f name s (by simpa using hm)])

theorem binLoopTF_no_triple (op : Char) (f : Bool → Bool → Bool)
    (name : String) :
    ∀ (fuel : Nat) (s : List Char), s.length < fuel →
      hasTriple op (binLoopTF op f name fuel s).1 = false
  | 0, s => by omega
  | fuel + 1, s => by
    intro hlt
    by_cases hfix : (replaceBinPassT op f name s).1 = s
    · simp only [binLoopTF, if_pos hfix]
      by_contra hm
      have := replaceBinPassT_length_lt op f name s (by simpa using hm)
      rw [hfix] at this
      omega
    · have hm := hasTriple_of_fst_ne op f name s hfix
      have hlen := replaceBinPassT_length_lt op f name s hm
      have ih := binLoopTF_no_triple op f name fuel
        (replaceBinPassT op f name s).1 (by omega)
      simpa only [binLoopTF, if_neg hfix] using ih

theorem binLoopT_no_triple (op : Char) (f : Bool → Bool → Bool)
    (name : String) (s : List Char) :
    hasTriple op (binLoopT op f name s).1 = false :=
  binLoopTF_no_triple op f name (s.length + 1) s (Nat.lt_succ_self s.length)

theorem spanNonParen_append :
    ∀ l : List Char, (spanNonParen l).1 ++ (spanNonParen l).2 = l
  | [] => rfl
  | c :: rest => by
    by_cases h : c = '(' ∨ c = ')'
    · simp [spanNonParen, h]
    · have ih := spanNonParen_append rest
      simp [spanNonParen, h, ih]

theorem spanNonParen_no_paren :
    ∀ l : List Char, '(' ∉ (spanNonParen l).1 ∧ ')' ∉ (spanNonParen l).1
  | [] => by simp [spanNonParen]
  | c :: rest => by
    by_cases h : c = '(' ∨ c = ')'
    · simp [spanNonParen, h]
    · have ih := spanNonParen_no_paren rest
      push_neg at h
      simp [spanNonParen, h, ih]
      exact ⟨fun he => h.1 he.symm, fun he => h.2 he.symm⟩

theorem parenCount_append :
    ∀ a b : List Char, parenCount (a ++ b) = parenCount a + parenCount b
  | [], b => by simp [parenCount]
  | c :: rest, b => by
    have ih := parenCount_append rest b
    simp [parenCount, ih]
    omega

theorem parenCount_eq_zero (l : List Char) (h : '(' ∉ l) : parenCount l = 0 := by
  induction l with
  | nil => rfl
  | cons c rest ih =>
    simp only [List.mem_cons, not_or] at h
    simp [parenCount, fun he : c = '(' => h.1 he.symm, ih h.2]
    intro he
    exact absurd he.symm h.1

theorem parenCount_boolChar_cons (b : Bool) (l : List Char) :
    parenCount (boolChar b :: l) = parenCount l := by
  cases b <;> simp [boolChar, parenCount]

theorem parenPassTF_count :
    ∀ (fuel : Nat) (s : List Char), s.length < fuel →
      parenCount (parenPassTF fuel s).1 ≤ parenCount s ∧
      ((parenPassTF fuel s).1 = s ∨
        parenCount (parenPassTF fuel s).1 < parenCount s)
  | 0, s => by omega
  | fuel + 1, [] => by
    intro
    simp [parenPassTF]
  | fuel + 1, c :: rest => by
    intro hlt
    simp only [List.length_cons] at hlt
    by_cases h : c = '(' ∧ (spanNonParen rest).2.head? = some ')' ∧
        (spanNonParen rest).1 ≠ []
    · have hc := h.1
      have hne := h.2.2
      subst hc
      have hsplit := spanNonParen_append rest
      have hnp := spanNonParen_no_paren rest
      cases hsp2 : (spanNonParen rest).2 with
      | nil =>
        have := h.2.1
        rw [hsp2] at this
        simp at this
      | cons c2 tail2 =>
        have hc2 : c2 = ')' := by
          have := h.2.1
          rw [hsp2] at this
          simpa using this
        subst hc2
        rw [hsp2] at hsplit
        have hlen : (spanNonParen rest).1.length + (tail2.length + 1) =
            rest.length := by
          have := congrArg List.length hsplit
          simpa using this
        have hinner : 1 ≤ (spanNonParen rest).1.length := by
          cases hsp1 : (spanNonParen rest).1 with
          | nil => exact absurd hsp1 hne
          | cons a t => simp
        have htail2 : tail2.length < fuel := by omega
        obtain ⟨ih1, ih2⟩ := parenPassTF_count fuel tail2 htail2
        have hcount : parenCount ('(' :: rest) = 1 + parenCount tail2 := by
          have h2 := congrArg parenCount hsplit
          rw [parenCount_append, parenCount_eq_zero _ hnp.1] at h2
          have h3 : parenCount (')' :: tail2) = parenCount tail2 := by
            simp only [parenCount, if_neg (by decide : ¬ (')' : Char) = '(')]
            omega
          have h4 : parenCount ('(' :: rest) = 1 + parenCount rest := by
            simp [parenCount]
          rw [h3] at h2
          omega
        have htails : (spanNonParen rest).2.tail = tail2 := by
          simp [hsp2]
        rw [show parenPassTF (fuel + 1) ('(' :: rest) =
            (boolChar (evaluateSubExpressionT (spanNonParen rest).1).1 ::
               (parenPassTF fuel tail2).1,
             parenStep (spanNonParen rest).1
                 (evaluateSubExpressionT (spanNonParen rest).1).1
                 (evaluateSubExpressionT (spanNonParen rest).1).2 ::
               (parenPassTF fuel tail2).2) by
          simp [parenPassTF, hsp2, hne]]
        rw [parenCount_boolChar_cons, hcount]
        exact ⟨by omega, Or.inr (by omega)⟩
    · have hrest : rest.length < fuel := by omega
      obtain ⟨ih1, ih2⟩ := parenPassTF_count fuel rest hrest
      simp only [parenPassTF, if_neg h]
      constructor
      · simp only [parenCount]
        omega
      · rcases ih2 with heq | hlt2
        · left
          rw [heq]
        · right
          simp only [parenCount]
          omega

theorem parenPassT_count_lt (s : List Char)
    (h : (parenPassT s).1 ≠ s) :
    parenCount (parenPassT s).1 < parenCount s := by
  have := parenPassTF_count (s.length + 1) s (Nat.lt_succ_self s.length)
  rcases this.2 with heq | hlt
  · exact absurd heq h
  · exact hlt

theorem substAux_of_not_mem (v rep : Char) :
    ∀ (prev : Option Char) (s : List Char), v ∉ s → substAux v rep prev s = s
  | _, [] => fun _ => rfl
  | prev, c :: rest => by
    intro h
    simp only [List.mem_cons, not_or] at h
    have hcv : (c == v) = false := by
      simp only [beq_eq_false_iff_ne]
      exact fun he => h.1 he.symm
    have ih := substAux_of_not_mem v rep (some c) rest h.2
    simp [substAux, hcv, ih]

theorem mem_substAux (v rep : Char) :
    ∀ (prev : Option Char) (s : List Char) (a : Char),
      a ∈ substAux v rep prev s → a ∈ s ∨ a = rep
  | _, [], a => by simp [substAux]
  | prev, c :: rest, a => by
    intro hm
    by_cases hcond : (c == v && prevOk prev && nextOk rest) = true
    · simp only [substAux, if_pos hcond, List.mem_cons] at hm
      rcases hm with h1 | h2
      · exact Or.inr h1
      · rcases mem_substAux v rep (some c) rest a h2 with h3 | h4
        · exact Or.inl (List.mem_cons_of_mem _ h3)
        · exact Or.inr h4
    · simp only [substAux, if_neg hcond, List.mem_cons] at hm
      rcases hm with h1 | h2
      · exact Or.inl (by simp [h1])
      · rcases mem_substAux v rep (some c) rest a h2 with h3 | h4
        · exact Or.inl (List.mem_cons_of_mem _ h3)
        · exact Or.inr h4

theorem mem_substAux_of_ne (v rep : Char) :
    ∀ (prev : Option Char) (s : List Char) (a : Char), a ≠ v → a ∈ s →
      a ∈ substAux v rep prev s
  | _, [], a => by simp
  | prev, c :: rest, a => by
    intro hne hm
    by_cases hcond : (c == v && prevOk prev && nextOk rest) = true
    · have hc : c = v := by
        simp only [Bool.and_eq_true, beq_iff_eq] at hcond
        exact hcond.1.1
      simp only [substAux, if_pos hcond, List.mem_cons]
      rcases List.mem_cons.mp hm with h1 | h2
      · exact absurd (h1.trans hc) hne
      · exact Or.inr (mem_substAux_of_ne v rep (some c) rest a hne h2)
    · simp only [substAux, if_neg hcond, List.mem_cons]
      rcases List.mem_cons.mp hm with h1 | h2
      · exact Or.inl h1
      · exact Or.inr (mem_substAux_of_ne v rep (some c) rest a hne h2)

theorem substPass_of_not_mem (v : Char) (b : Bool) (s : List Char)
    (h : v ∉ s) : substPass v b s = s :=
  substAux_of_not_mem v (boolChar b) none s h

theorem not_mem_substitute (v : Char) (hv0 : v ≠ '0') (hv1 : v ≠ '1') :
    ∀ (values : List (Char × Bool)) (s : List Char),
      v ∉ s → v ∉ substitute values s
  | [], s => fun h => by simpa [substitute] using h
  | vb :: rest, s => by
    intro h
    have h2 : v ∉ substPass vb.1 vb.2 s := by
      intro hmem
      rcases mem_substAux vb.1 (boolChar vb.2) none s v hmem with h3 | h4
      · exact h h3
      · cases hb : vb.2
        · rw [hb] at h4
          exact hv0 (by simpa [boolChar] using h4)
        · rw [hb] at h4
          exact hv1 (by simpa [boolChar] using h4)
    have := not_mem_substitute v hv0 hv1 rest (substPass vb.1 vb.2 s) h2
    simpa [substitute, List.foldl_cons] using this

theorem mem_substitute_of_not_key (v : Char) :
    ∀ (values : List (Char × Bool)) (s : List Char),
      v ∉ values.map Prod.fst → v ∈ s → v ∈ substitute values s
  | [], s => by
    intro _ h
    simpa [substitute] using h
  | vb :: rest, s => by
    intro hk h
    simp only [List.map_cons, List.mem_cons, not_or] at hk
    have h1 : v ∈ substPass vb.1 vb.2 s :=
      mem_substAux_of_ne vb.1 (boolChar vb.2) none s v hk.1 h
    have := mem_substitute_of_not_key v rest (substPass vb.1 vb.2 s) hk.2 h1
    simpa [substitute, List.foldl_cons] using this

theorem foldl_substStep_eq :
    ∀ (values : List (Char × Bool)) (s : List Char) (acc : List Step),
      values.foldl substStep (s, acc) =
        (substitute values s, acc ++ perVarSteps values s)
  | [], s, acc => by simp [substitute, perVarSteps]
  | vb :: rest, s, acc => by
    by_cases heq : substPass vb.1 vb.2 s = s
    · have ih := foldl_substStep_eq rest s acc
      simp only [List.foldl_cons, substStep, if_pos heq]
      rw [ih]
      simp [substitute, perVarSteps, heq]
    · have ih := foldl_substStep_eq rest (substPass vb.1 vb.2 s)
        (acc ++ [substRecStep vb (substPass vb.1 vb.2 s)])
      simp only [List.foldl_cons, substStep, if_neg heq]
      rw [ih]
      simp [substitute, perVarSteps, heq, List.foldl_cons]

theorem substituteAll_fst (values : List (Char × Bool)) (e : List Char) :
    (substituteAll values e).1 = substitute values e := by
  rw [substituteAll, foldl_substStep_eq]

theorem substituteAll_snd (values : List (Char × Bool)) (e : List Char) :
    (substituteAll values e).2 = origStep e :: perVarSteps values e := by
  rw [substituteAll, foldl_substStep_eq]
  rfl

theorem foldl_cons_rev (g : Nat → Bool) :
    ∀ (l : List Nat) (acc : List Bool),
      l.foldl (fun combo j => g j :: combo) acc = (l.map g).reverse ++ acc
  | [], acc => by simp
  | j :: rest, acc => by
    have ih := foldl_cons_rev g rest (g j :: acc)
    simp only [List.foldl_cons, ih, List.map_cons, List.reverse_cons]
    simp

theorem generateCombinations_row (n : Nat) (i : Nat) :
    (List.range n).reverse.foldl (fun combo j => Nat.testBit i j :: combo) [] =
      (List.range n).map (fun k => Nat.testBit i k) := by
  rw [foldl_cons_rev]
  simp [List.map_reverse]

theorem generateCombinations_get (vs : List String) (i : Nat)
    (h : i < 2 ^ vs.length) :
    (generateCombinations vs)[i]? =
      some ((List.range vs.length).map (fun k => Nat.testBit i k)) := by
  rw [generateCombinations, List.getElem?_map, List.getElem?_range h]
  simp only [Option.map_some']
  rw [generateCombinations_row]

/-- C1, counterexample: `generateCombinations(["p","q"])` does not return the
claimed MSB-first order `[[false,false],[false,true],[true,false],[true,true]]`;
the `unshift` in the source builds each row least-significant bit first, so
the actual value is `[[false,false],[true,false],[false,true],[true,true]]`. -/
theorem C1_counterexample :
    generateCombinations ["p", "q"] ≠
      [[false, false], [false, true], [true, false], [true, true]] := by
  decide

/-- C1, amended: for every list of n variable symbols, `generateCombinations`
returns the 2^n combinations in ascending binary order of the row index,
where row i maps bit k of i to `variables[k]` — least-significant bit first
(bit 1 → true); in particular `generateCombinations(["p","q"])` returns
exactly `[[false,false],[true,false],[false,true],[true,true]]`. -/
theorem C1_rows_lsb_first (vs : List String) (i : Nat)
    (h : i < 2 ^ vs.length) :
    (generateCombinations vs).length = 2 ^ vs.length ∧
    (generateCombinations vs)[i]? =
      some ((List.range vs.length).map (fun k => Nat.testBit i k)) ∧
    generateCombinations ["p", "q"] =
      [[false, false], [true, false], [false, true], [true, true]] := by
  refine ⟨?_, generateCombinations_get vs i h, by decide⟩
  rw [generateCombinations]
  simp

/-- C1, witness for the amended theorem at the concrete row `i = 1` of
`["p","q"]`. -/
theorem C1_rows_lsb_first_witness :
    (generateCombinations ["p", "q"]).length =
      2 ^ (["p", "q"] : List String).length ∧
    (generateCombinations ["p", "q"])[1]? =
      some ((List.range (["p", "q"] : List String).length).map
        (fun k => Nat.testBit 1 k)) ∧
    generateCombinations ["p", "q"] =
      [[false, false], [true, false], [false, true], [true, true]] :=
  C1_rows_lsb_first ["p", "q"] 1 (by decide)

/-- C2, code bug: evaluating the claim's own example `"p → q"` (with spaces,
exactly as written in the claim, the spec and the source's doc comments)
under `p := false, q := false` yields `false`, not the `true` demanded by the
implication truth table: after substitution the working string is `"0 → 0"`
and the regex `([01])→([01])` never matches across the spaces, so the final
string differs from `"1"`.  The source's own `@example`
(`evaluateExpression('p ∧ q', {p: true, q: true})` claimed to be `true`)
fails the same way, witnessed by the second conjunct. -/
theorem C2_spaced_examples :
    (evaluateExpression ("p → q".toList) [('p', false), ('q', false)]).1 =
      false ∧
    (evaluateExpression ("p ∧ q".toList) [('p', true), ('q', true)]).1 =
      false := by
  decide

/-- C3: flat evaluation first resolves every resolvable `¬` (none of the
pattern `¬[01]` survives the NOT loop), then resolves the binary operators in
the fixed global order `∧, ∨, ⊼, ⊽, ⊕, ↔, →`; after the loop of an operator
no digit-operator-digit occurrence of it remains, before the next operator is
touched.  The concrete evaluations discriminate the global order: in
`"1∨0∧0"` the `∧` everywhere resolves before the earlier `∨` (giving true,
whereas a left-to-right reduction gives false), and `"1⊼1∨1"`/`"1⊕1∨1"`
resolve `∨` before `⊼`/`⊕` as the list dictates. -/
theorem C3_flat_precedence :
    (∀ s : List Char, hasNotMatch (notLoopT s).1 = false) ∧
    (∀ (op : Char) (f : Bool → Bool → Bool) (name : String) (s : List Char),
      hasTriple op (binLoopT op f name s).1 = false) ∧
    (evaluateSubExpressionT ("¬1∨1".toList)).1 = true ∧
    (evaluateSubExpressionT ("1∨0∧0".toList)).1 = true ∧
    (evaluateSubExpressionT ("1⊼1∨1".toList)).1 = false ∧
    (evaluateSubExpressionT ("1⊕1∨1".toList)).1 = false :=
  ⟨notLoopT_no_match, binLoopT_no_triple,
   by decide, by decide, by decide, by decide⟩

/-- C4: the evaluator terminates with exactly one boolean — each NOT or
binary-operator pass that changes the working string strictly shortens it,
each parenthesis pass that changes the working string strictly reduces the
count of `'('` characters, and (definitionally, in the loop models) a pass
that makes no replacement aborts its loop. -/
theorem C4_termination (s : List Char) (op : Char) (f : Bool → Bool → Bool)
    (name : String) (e : List Char) (values : List (Char × Bool)) :
    ((replaceNotPassT s).1 ≠ s → (replaceNotPassT s).1.length < s.length) ∧
    ((replaceBinPassT op f name s).1 ≠ s →
      (replaceBinPassT op f name s).1.length < s.length) ∧
    ((parenPassT s).1 ≠ s → parenCount (parenPassT s).1 < parenCount s) ∧
    (∃! b : Bool, (evaluateExpression e values).1 = b) := by
  refine ⟨?_, ?_, parenPassT_count_lt s,
    ⟨(evaluateExpression e values).1, rfl, fun y hy => hy.symm⟩⟩
  · intro h
    exact replaceNotPassT_length_lt s (hasNotMatch_of_fst_ne s h)
  · intro h
    exact replaceBinPassT_length_lt op f name s (hasTriple_of_fst_ne op f name s h)

/-- C4, witness: the strict decreases at the concrete inputs `"¬1"`, `"1∧1"`
and `"(1)"`. -/
theorem C4_termination_witness :
    (replaceNotPassT ("¬1".toList)).1.length < ("¬1".toList).length ∧
    (replaceBinPassT '∧' (fun a b => a && b) "AND" ("1∧1".toList)).1.length <
      ("1∧1".toList).length ∧
    parenCount (parenPassT ("(1)".toList)).1 < parenCount ("(1)".toList) :=
  ⟨(C4_termination ("¬1".toList) '∧' (fun a b => a && b) "AND" [] []).1
      (by decide),
   (C4_termination ("1∧1".toList) '∧' (fun a b => a && b) "AND" [] []).2.1
      (by decide),
   (C4_termination ("(1)".toList) '∧' (fun a b => a && b) "AND" [] []).2.2.1
      (by decide)⟩

/-- C5: an empty expression yields the defined default
`{result: false, steps: []}` for every assignment, on both the untraced and
the traced paths (the traced record carries no substitution steps, since the
source returns before any step bookkeeping). -/
theorem C5_empty_expression (values : List (Char × Bool)) :
    evaluateExpression [] values = (false, []) ∧
    evaluateExpressionT [] values = ⟨false, [], none, none⟩ :=
  ⟨rfl, rfl⟩

/-- C6, counterexample: at `"p∧q"` with `{p: true, q: false}` the code's
substitution-phase step list is
`[Expresión original, Sustitución: p, Sustitución: q]` — it opens with the
original-expression step (which is neither a per-variable step nor the
all-variables-replaced snapshot, violating "and nothing else"), and the
snapshot step lands in the main `steps` list instead — so it differs from
the list the claim describes (`claimSubstitutionSteps`). -/
theorem C6_counterexample :
    ((evaluateExpressionT ("p∧q".toList)
        [('p', true), ('q', false)]).substitutionSteps).map
      (List.map Step.operation) =
        some ["Expresión original", "Sustitución: p", "Sustitución: q"] ∧
    (claimSubstitutionSteps [('p', true), ('q', false)]
        ("p∧q".toList)).map Step.operation =
      ["Sustitución: p", "Sustitución: q", "Sustitución de variables"] ∧
    (evaluateExpressionT ("p∧q".toList)
        [('p', true), ('q', false)]).substitutionSteps ≠
      some (claimSubstitutionSteps [('p', true), ('q', false)]
        ("p∧q".toList)) := by
  refine ⟨by decide, by decide, fun h => ?_⟩
  have h2 := congrArg (Option.map (List.map Step.operation)) h
  exact absurd h2 (by decide)

/-- C6, amended: for a non-empty expression, the substitution-phase step list
(`substitutionSteps`) consists of one initial step recording the original
expression followed by exactly one step per variable of the assignment whose
replacement actually changed the working string — each capturing the variable
name, its truth value, and the string state after that substitution — and
nothing else; the step showing the string with all variables replaced is
recorded as the first entry of the main evaluation step list instead. -/
theorem C6_substitution_trace (e : List Char) (values : List (Char × Bool))
    (he : e ≠ []) :
    (evaluateExpressionT e values).substitutionSteps =
      some (origStep e :: perVarSteps values e) ∧
    (evaluateExpressionT e values).steps.head? =
      some (snapStep (substitute values e)) := by
  rw [evaluateExpressionT, if_neg he]
  exact ⟨by simp [substituteAll_snd], by simp [substituteAll_fst]⟩

/-- C6, witness for the amended theorem at `"p"` with `{p: true}`. -/
theorem C6_substitution_trace_witness :
    (evaluateExpressionT ("p".toList) [('p', true)]).substitutionSteps =
      some (origStep ("p".toList) :: perVarSteps [('p', true)] ("p".toList)) ∧
    (evaluateExpressionT ("p".toList) [('p', true)]).steps.head? =
      some (snapStep (substitute [('p', true)] ("p".toList))) :=
  C6_substitution_trace ("p".toList) [('p', true)] (by decide)

/-- C7: an assignment entry for an alphabet variable that does not occur in
the expression is ignored — appending it to the assignment changes neither
the result nor any step list, traced or not. -/
theorem C7_ignore_extra (e : List Char) (values : List (Char × Bool))
    (v : Char) (b : Bool) (hv : v ∈ variablesList) (he : v ∉ e) :
    evaluateExpression e (values ++ [(v, b)]) = evaluateExpression e values ∧
    evaluateExpressionT e (values ++ [(v, b)]) = evaluateExpressionT e values := by
  have hv0 : v ≠ '0' := by
    intro h
    rw [h] at hv
    simp [variablesList] at hv
  have hv1 : v ≠ '1' := by
    intro h
    rw [h] at hv
    simp [variablesList] at hv
  have hsub : substitute (values ++ [(v, b)]) e = substitute values e := by
    rw [substitute, List.foldl_append]
    simp only [List.foldl_cons, List.foldl_nil]
    exact substPass_of_not_mem v b _ (not_mem_substitute v hv0 hv1 values e he)
  have hsubAll : substituteAll (values ++ [(v, b)]) e =
      substituteAll values e := by
    rw [substituteAll, List.foldl_append]
    simp only [List.foldl_cons, List.foldl_nil]
    show substStep (substituteAll values e) (v, b) = substituteAll values e
    have hfix : substPass v b (substituteAll values e).1 =
        (substituteAll values e).1 := by
      rw [substituteAll_fst]
      exact substPass_of_not_mem v b _ (not_mem_substitute v hv0 hv1 values e he)
    rw [substStep, if_pos hfix]
  constructor
  · rw [evaluateExpression, evaluateExpression, hsub]
  · rw [evaluateExpressionT, evaluateExpressionT, hsubAll]

/-- C7, witness: appending the unused entry `q ↦ false` to `{p: true}` on the
expression `"p"` changes nothing. -/
theorem C7_ignore_extra_witness :
    evaluateExpression ("p".toList) ([('p', true)] ++ [('q', false)]) =
      evaluateExpression ("p".toList) [('p', true)] ∧
    evaluateExpressionT ("p".toList) ([('p', true)] ++ [('q', false)]) =
      evaluateExpressionT ("p".toList) [('p', true)] :=
  C7_ignore_extra ("p".toList) [('p', true)] 'q' false (by decide) (by decide)

/-- C8: `extractVariables` returns the alphabetically sorted, duplicate-free
list of exactly those symbols among `{p,q,r,x,y,z}` that occur in the
expression (for one-character symbols, substring containment is character
membership); the `Set`-dedup and the sort are identity maps on the filtered
alphabet, the output is strictly sorted (hence duplicate-free), membership is
exactly alphabet-and-occurrence, and the two concrete examples hold. -/
theorem C8_extractVariables :
    (∀ s : List Char,
      extractVariables s = variablesList.filter (fun v => decide (v ∈ s)) ∧
      (extractVariables s).Sorted (fun a b => a < b) ∧
      (∀ c : Char, c ∈ extractVariables s ↔ c ∈ variablesList ∧ c ∈ s)) ∧
    extractVariables ("p ∨ (q ∧ r)".toList) = ['p', 'q', 'r'] ∧
    extractVariables ("p ∧ p ∨ q".toList) = ['p', 'q'] := by
  refine ⟨fun s => ?_, by decide, by decide⟩
  have hnd : (variablesList.filter (fun v => decide (v ∈ s))).Nodup :=
    List.Nodup.filter _ (by decide)
  have hsorted :
      List.Pairwise (fun a b : Char => a ≤ b)
        (variablesList.filter (fun v => decide (v ∈ s))) :=
    List.Pairwise.filter _
      (by decide : List.Pairwise (fun a b : Char => a ≤ b) variablesList)
  have heq : extractVariables s =
      variablesList.filter (fun v => decide (v ∈ s)) := by
    rw [extractVariables, hnd.dedup]
    exact List.Sorted.insertionSort_eq hsorted
  refine ⟨heq, ?_, fun c => ?_⟩
  · rw [heq]
    exact List.Pairwise.filter _
      (by decide : List.Pairwise (fun a b : Char => a < b) variablesList)
  · rw [heq, List.mem_filter]
    simp

/-- C9, counterexample: in `"(p)∨q"` with assignment `{q: true}`, the
variable `p` occurs in the expression, has no assignment entry, and yet the
result is `true` — the parenthesized group containing the leftover `p` is
evaluated to `'0'` and absorbed, so leftover variable text does not
necessarily make the result false as the claim states. -/
theorem C9_counterexample :
    'p' ∈ "(p)∨q".toList ∧
    'p' ∉ ([('q', true)].map Prod.fst) ∧
    (evaluateExpression ("(p)∨q".toList) [('q', true)]).1 = true := by
  decide

/-- C9, amended: a variable without an assignment entry raises no error and
is silently left unsubstituted by the substitution phase; the result is
`true` exactly when the fully reduced flat string equals `"1"`, so leftover
variable text that survives to that final string forces the result `false` —
but a parenthesized group containing leftover text is itself reduced to a
single digit, so an unassigned variable need not make the overall result
false; in particular `evaluateExpression("p", {})` returns
`{result: false, steps: []}`. -/
theorem C9_missing_assignment :
    evaluateExpression ("p".toList) [] = (false, []) ∧
    (∀ (v : Char) (values : List (Char × Bool)) (s : List Char),
      v ∉ values.map Prod.fst → v ∈ s → v ∈ substitute values s) ∧
    (∀ (e : List Char) (values : List (Char × Bool)), e ≠ [] →
      ((evaluateExpression e values).1 = true ↔
        flatResult (parenLoopT (substitute values e)).1 = ['1'])) := by
  refine ⟨rfl, fun v => mem_substitute_of_not_key v, fun e values he => ?_⟩
  rw [evaluateExpression, if_neg he]
  simp [evaluateSubExpressionT]

/-- C9, witness for the amended theorem: the unassigned `q` survives
substitution in `"p∧q"` under `{p: true}`, and the result-iff-final-string
characterization at `"p"` under `{p: true}`. -/
theorem C9_missing_assignment_witness :
    'q' ∈ substitute [('p', true)] ("p∧q".toList) ∧
    ((evaluateExpression ("p".toList) [('p', true)]).1 = true ↔
      flatResult (parenLoopT (substitute [('p', true)] ("p".toList))).1 =
        ['1']) :=
  ⟨C9_missing_assignment.2.1 'q' [('p', true)] ("p∧q".toList)
      (by decide) (by decide),
   C9_missing_assignment.2.2 ("p".toList) [('p', true)] (by decide)⟩

/-- C10: `generateCombinations([])` returns `[[]]` — one row (2^0 = 1), the
empty combination, so a truth table over zero variables still has a single
row. -/
theorem C10_empty_combinations :
    generateCombinations ([] : List String) = [[]] := by
  decide

end AlgebraLogica
